import Mathlib

/-!
Shallow embedding of `restaurant.py` (classes `Inventory`, `Order`,
`Department`, `Restaurant`).

Python `collections.deque` objects are mutable heap objects: `Department`
stores references to them in two lists, `queue` (committed schedule) and
`cache` (speculative schedule).  `reverse_required_time` copies the *list*
of references but not the deques themselves, so aliasing between the two
schedules is observable.  We therefore model each department with an
explicit store of deques addressed by natural-number references, and the
two schedules as lists of references into that store.

Times are integers (the Python code only ever manipulates whole seconds:
order timestamps are parsed with second precision and task times are
whole minutes converted to seconds).
-/

/-- A Python `collections.deque(maxlen := m)`: bounded sequence,
front =  most recently pushed element. -/
structure Deque where
  maxlen : Nat
  elems : List Int
deriving Repr, DecidableEq

/-- `deque.appendleft x`: push to the front, evicting from the back when
 the maxlen bound is exceeded. -/
def Deque.appendleft (q : Deque) (x : Int) : Deque :=
  ⟨q.maxlen, (x :: q.elems).take q.maxlen⟩

/-- Python lexicographic `<` on sequences of numbers (used by `min` over
deques): a strict prefix is smaller, otherwise compare pointwise. -/
def lexLt : List Int → List Int → Bool
  | _, [] => false
  | [], _ :: _ => true
  | a :: as, b :: bs => a < b || (a == b && lexLt as bs)

/-- Dereference a deque in the store (all references used by the program
are in range; the default is never consulted on reachable states). -/
def getDeque (store : List Deque) (r : Nat) : Deque :=
  store.getD r ⟨0, []⟩

/-- Loop of Python `min` over a list: keep the current best, replace it
only when a later element is strictly smaller (so ties keep the first). -/
def bestIdx : List (List Int) → Nat → Nat → List Int → Nat
  | [], _, best, _ => best
  | e :: es, i, best, bestE =>
    if lexLt e bestE then bestIdx es (i + 1) i e
    else bestIdx es (i + 1) best bestE

/-- Index (into the cache list) of the deque `min(self.cache)` returns:
first lexicographically-minimal history.  `none` exactly when the list is
empty, where Python `min` raises `ValueError`. -/
def minIdx : List (List Int) → Option Nat
  | [] => none
  | e :: es => some (bestIdx es 1 0 e)

/-- `Inventory`: counts of the five ingredient kinds. -/
structure Inventory where
  patties : Int
  lettuce : Int
  tomato : Int
  veggie : Int
  bacon : Int
deriving Repr, DecidableEq

/-- `Inventory.create_from_array`: requires exactly 5 (int-coercible)
values, otherwise raises. We model the already-coerced integer values;
the length check is the only validation performed. -/
def Inventory.create_from_array (items : List Int) : Except String Inventory :=
  match items with
  | [p, l, t, v, b] => .ok ⟨p, l, t, v, b⟩
  | _ => .error "The length of the items doesnt match with the items in the inventory"

/-- `Inventory.create_from_order_items`: one patty per item; the other
four counts tally the letters L, T, V, B over the concatenation
`''.join(items)` of all item codes. -/
def Inventory.create_from_order_items (items : List (List Char)) : Inventory :=
  let item_str := items.foldl (· ++ ·) []
  ⟨items.length, item_str.count 'L', item_str.count 'T',
    item_str.count 'V', item_str.count 'B'⟩

/-- `Inventory.as_array`. -/
def Inventory.as_array (inv : Inventory) : List Int :=
  [inv.patties, inv.lettuce, inv.tomato, inv.veggie, inv.bacon]

/-- `Inventory.__sub__`: element-wise numpy subtraction of the two
5-element arrays. -/
def Inventory.sub (a b : Inventory) : List Int :=
  List.zipWith (· - ·) a.as_array b.as_array

/-- Python `min` over a non-empty numpy array (the 5-element diff). -/
def listMin : List Int → Int
  | [] => 0
  | x :: xs => xs.foldl min x

/-- An `Order`: we keep the fields the scheduling core reads.
`order_time` is the parsed timestamp minus the fixed epoch. -/
structure Order where
  restaurant_id : String
  order_time : Int
  order_id : String
  items : List (List Char)
deriving Repr, DecidableEq

/-- `self.inventory_req` as computed in `Order.__init__`. -/
def Order.inventory_req (o : Order) : Inventory :=
  Inventory.create_from_order_items o.items

/-- The decision written onto the order by `Restaurant.check_order`:
`status` (the Python string) and `required_time` (0 unless accepted,
matching the field's initial value). -/
structure OrderResult where
  status : String
  required_time : Int
deriving Repr, DecidableEq

/-- A `Department`: static configuration plus the store of deque objects
and the two lists of references into it (`queue` = committed schedule,
`cache` = speculative schedule). -/
structure Department where
  name : String
  capacity : Int
  task_time : Int
  store : List Deque
  queue : List Nat
  cache : List Nat
deriving Repr, DecidableEq

/-- `Department.__init__`: `capacity` fresh empty deques of maxlen 1 for
the queue and `capacity` fresh empty deques of maxlen 6 for the cache.
Python `range(capacity)` is empty for `capacity ≤ 0`; no validation is
performed. -/
def Department.init (name : String) (capacity task_time : Int) : Department :=
  let n := capacity.toNat
  { name := name
    capacity := capacity
    task_time := task_time
    store := (List.range n).map (fun _ => ⟨1, []⟩) ++ (List.range n).map (fun _ => ⟨6, []⟩)
    queue := List.range n
    cache := (List.range n).map (fun i => n + i) }

/-- Contents of the speculative schedule, slot by slot. -/
def Department.cacheElems (d : Department) : List (List Int) :=
  d.cache.map (fun r => (getDeque d.store r).elems)

/-- Contents of the committed schedule, slot by slot. -/
def Department.queueElems (d : Department) : List (List Int) :=
  d.queue.map (fun r => (getDeque d.store r).elems)

/-- Waiting time for a slot with the given history: 0 when idle,
otherwise `max(mostRecentFinish - order_time, 0)`. -/
def waitTime (elems : List Int) (order_time : Int) : Int :=
  match elems with
  | [] => 0
  | f :: _ => max (f - order_time) 0

/-- `Department.append_time`: pick `min(self.cache)` (first
lexicographically-minimal deque), compute the wait from its front
element, push the proposed finish time, return task time + wait.
`none` models the `ValueError` of `min` on an empty list. -/
def Department.append_time (d : Department) (order_time : Int) :
    Option (Int × Department) :=
  match minIdx d.cacheElems with
  | none => none
  | some i =>
    let r := d.cache.getD i 0
    let q := getDeque d.store r
    let wait_time : Int := waitTime q.elems order_time
    let q' := q.appendleft (order_time + d.task_time + wait_time)
    some (d.task_time + wait_time, { d with store := d.store.set r q' })

/-- The loop body of `Department.required_time`: iterate over the items
(the item's letters are never read), tracking the running max. -/
def required_time_loop (order_time : Int) :
    Department → List (List Char) → Int → Option (Int × Department)
  | d, [], acc => some (acc, d)
  | d, _ :: rest, acc =>
    match d.append_time order_time with
    | none => none
    | some (t, d') => required_time_loop order_time d' rest (max acc t)

/-- `Department.required_time`: max over items of the per-item required
time, starting from 0. -/
def Department.required_time (d : Department) (o : Order) :
    Option (Int × Department) :=
  required_time_loop o.order_time d o.items 0

/-- The loop of `Department.commit_required_time`: rebuild the queue from
copies of the cache deques (`copy(cache)` allocates a new deque with the
same maxlen and contents; an empty cache slot becomes a fresh
`deque(maxlen=1)`).  New objects are appended at the end of the store. -/
def commit_loop : List Deque → List Nat → List Deque × List Nat
  | store, [] => (store, [])
  | store, r :: rs =>
    let q := getDeque store r
    let newq : Deque := if q.elems.isEmpty then ⟨1, []⟩ else ⟨q.maxlen, q.elems⟩
    let p := commit_loop (store ++ [newq]) rs
    (p.1, store.length :: p.2)

/-- `Department.commit_required_time`. The cache keeps its old deques
(the `self.cache = self.queue` line is commented out in the source). -/
def Department.commit_required_time (d : Department) : Department :=
  { d with store := (commit_loop d.store d.cache).1,
           queue := (commit_loop d.store d.cache).2 }

/-- `Department.reverse_required_time`: `self.cache = copy(self.queue)` —
a SHALLOW copy of the list, so the cache now holds references to the very
same deque objects as the committed queue. -/
def Department.reverse_required_time (d : Department) : Department :=
  { d with cache := d.queue }

/-- A `Restaurant`. -/
structure Restaurant where
  id : String
  departments : List Department
  inventory : Inventory
  total_time : Int
  cache_inventory : Option (List Int)
deriving Repr, DecidableEq

/-- `Restaurant.check_inventory`: stores the speculative diff in
`cache_inventory` and reports whether every component is ≥ 0. -/
def Restaurant.check_inventory (r : Restaurant) (o : Order) :
    Bool × Restaurant :=
  let diff := r.inventory.sub o.inventory_req
  (decide (0 ≤ listMin diff), { r with cache_inventory := some diff })

/-- The loop of `Restaurant.required_time`: sum of the departments'
required times, each department called with the same order (hence the
order's original arrival time), state threading left to right. -/
def restaurant_rt_loop (o : Order) :
    List Department → Int → Option (Int × List Department)
  | [], acc => some (acc, [])
  | d :: ds, acc =>
    match d.required_time o with
    | none => none
    | some (t, d') =>
      match restaurant_rt_loop o ds (acc + t) with
      | none => none
      | some (total, ds') => some (total, d' :: ds')

/-- `Restaurant.required_time`. -/
def Restaurant.required_time (r : Restaurant) (o : Order) :
    Option (Int × Restaurant) :=
  match restaurant_rt_loop o r.departments 0 with
  | none => none
  | some (t, ds) => some (t, { r with departments := ds })

/-- `Restaurant.commit_required_time`. -/
def Restaurant.commit_required_time (r : Restaurant) : Restaurant :=
  { r with departments := r.departments.map Department.commit_required_time }

/-- `Restaurant.reverse_required_time`. -/
def Restaurant.reverse_required_time (r : Restaurant) : Restaurant :=
  { r with departments := r.departments.map Department.reverse_required_time }

/-- `Restaurant.commit_inventory`: rebuild the committed inventory from
the cached diff (raises when no diff is cached or it is malformed; in
`check_order` it always holds a 5-element diff). -/
def Restaurant.commit_inventory (r : Restaurant) : Except String Restaurant :=
  match r.cache_inventory with
  | none => .error "no cached inventory"
  | some diff =>
    match Inventory.create_from_array diff with
    | .ok inv => .ok { r with inventory := inv }
    | .error e => .error e

/-- `Restaurant.check_order`: the two-phase evaluate/commit/abort
protocol.  `none` models an uncaught Python exception (unreachable on
well-formed restaurants); rejection is an ordinary `some` result. -/
def Restaurant.check_order (r : Restaurant) (o : Order) (time_threshold : Int) :
    Option (Restaurant × OrderResult) :=
  let p := r.check_inventory o
  if p.1 then
    match p.2.required_time o with
    | none => none
    | some (req_time, r2) =>
      if req_time < time_threshold then
        match r2.commit_inventory with
        | .error _ => none
        | .ok r3 =>
          let r4 := r3.commit_required_time
          some ({ r4 with total_time := r4.total_time + req_time },
            ⟨"ACCEPTED", req_time⟩)
      else
        some (r2.reverse_required_time, ⟨"REJECTED", 0⟩)
  else
    some (p.2, ⟨"REJECTED", 0⟩)

/-- Trace of the per-item required durations for `n` successive
`append_time` calls at a fixed arrival time (each item of an order is
treated identically by `Department.required_time`). -/
def append_times (order_time : Int) : Department → Nat → Option (List Int × Department)
  | d, 0 => some ([], d)
  | d, n + 1 =>
    match d.append_time order_time with
    | none => none
    | some (t, d') =>
      match append_times order_time d' n with
      | none => none
      | some (ts, d'') => some (t :: ts, d'')

/-- Chain relating a pipeline of departments to the list of per-stage
required times for one order: each stage is evaluated on the state left
by the previous one, every stage seeing the same order (hence the
order's original arrival time). -/
def deptChain (o : Order) : List Department → List Int → List Department → Prop
  | [], [], [] => True
  | d :: ds, t :: ts, d' :: ds' =>
    d.required_time o = some (t, d') ∧ deptChain o ds ts ds'
  | _, _, _ => False

/-- Well-formedness of a department: both schedules have exactly
`capacity` slots, all references resolve, and every deque respects its
bound, which never exceeds 6. -/
def Department.wf (d : Department) : Prop :=
  d.queue.length = d.capacity.toNat ∧ d.cache.length = d.capacity.toNat ∧
  (∀ r ∈ d.queue, r < d.store.length) ∧ (∀ r ∈ d.cache, r < d.store.length) ∧
  (∀ q ∈ d.store, q.maxlen ≤ 6 ∧ q.elems.length ≤ q.maxlen)

instance (d : Department) : Decidable d.wf := by
  unfold Department.wf; infer_instance

/-- A one-slot kitchen used for the concrete runs: one department of
capacity 1 and task time 60 s, ample stock. -/
def exampleKitchen : Restaurant :=
  ⟨"R1", [Department.init "cooking" 1 60], ⟨100, 200, 200, 100, 100⟩, 0, none⟩

/-- A one-item order (one bacon burger) arriving at time 0. -/
def exampleOrderB : Order := ⟨"R1", 0, "O1", [['B']]⟩

/-- A two-item order arriving at time 0. -/
def exampleOrder2 : Order := ⟨"R1", 0, "O2", [['B'], ['B']]⟩

/-- The kitchen state after `exampleOrderB` is rejected for time
(threshold 0): the abort has made the speculative schedule share its
deque with the committed schedule. -/
def exampleAfterReject : Restaurant :=
  match exampleKitchen.check_order exampleOrderB 0 with
  | some p => p.1
  | none => exampleKitchen

/-- The department state reached by evaluating `exampleOrderB` once on a
fresh capacity-1 department (used as a concrete witness state). -/
def exampleDept' : Department :=
  ⟨"cooking", 1, 60, [⟨1, []⟩, ⟨6, [60]⟩], [0], [1]⟩

/-- The kitchen state reached from `exampleKitchen` after the inventory
check and the speculative time evaluation of `exampleOrderB`. -/
def exampleR2W : Restaurant :=
  ⟨"R1", [exampleDept'], ⟨100, 200, 200, 100, 100⟩, 0, some [99, 200, 200, 100, 99]⟩

/-- A two-slot department with non-empty slot histories, exercising the
lexicographic slot selection at a non-trivial input. -/
def exampleDeptTwoSlots : Department :=
  ⟨"cooking", 2, 60, [⟨6, [100]⟩, ⟨6, [30]⟩], [], [0, 1]⟩

/-! ## Helper lemmas -/

theorem foldl_append_eq_append_join (items : List (List Char)) :
    ∀ acc : List Char, items.foldl (· ++ ·) acc = acc ++ items.flatten := by
  induction items with
  | nil => intro acc; simp
  | cons x xs ih => intro acc; simp [ih]

theorem required_time_preserves_fields (r : Restaurant) (o : Order) (t : Int)
    (r' : Restaurant) (h : r.required_time o = some (t, r')) :
    r'.id = r.id ∧ r'.inventory = r.inventory ∧ r'.total_time = r.total_time ∧
      r'.cache_inventory = r.cache_inventory := by
  unfold Restaurant.required_time at h
  cases hm : restaurant_rt_loop o r.departments 0 with
  | none => rw [hm] at h; exact absurd h (by simp)
  | some p =>
    rw [hm] at h
    cases h
    exact ⟨rfl, rfl, rfl, rfl⟩

/-! ## Claims -/

/-- Claim C9: `create_from_order_items` yields one patty per item and
counts the letters L, T, V, B over the concatenation of the item codes
for the lettuce, tomato, veggie and bacon components respectively. -/
theorem create_from_order_items_spec (items : List (List Char)) :
    (Inventory.create_from_order_items items).patties = items.length
    ∧ (Inventory.create_from_order_items items).lettuce = items.flatten.count 'L'
    ∧ (Inventory.create_from_order_items items).tomato = items.flatten.count 'T'
    ∧ (Inventory.create_from_order_items items).veggie = items.flatten.count 'V'
    ∧ (Inventory.create_from_order_items items).bacon = items.flatten.count 'B' := by
  unfold Inventory.create_from_order_items
  simp [foldl_append_eq_append_join]

/-- Claim C6: when some component of committed stock minus the order's
requirement is negative, `check_order` returns (does not throw) a
REJECTED decision, and the only state change is the cached inventory
diff: the departments (hence every committed and speculative schedule),
the committed inventory and the accumulated total are untouched. -/
theorem check_order_insufficient_inventory (r : Restaurant) (o : Order)
    (budget : Int) (h : listMin (r.inventory.sub o.inventory_req) < 0) :
    r.check_order o budget =
      some ({ r with cache_inventory := some (r.inventory.sub o.inventory_req) },
        ⟨"REJECTED", 0⟩) := by
  unfold Restaurant.check_order Restaurant.check_inventory
  have hd : decide (0 ≤ listMin (r.inventory.sub o.inventory_req)) = false :=
    decide_eq_false (not_le.mpr h)
  simp [hd]

theorem check_order_insufficient_inventory_witness :
    listMin ((⟨"R1", [], ⟨0, 0, 0, 0, 0⟩, 0, none⟩ : Restaurant).inventory.sub
        exampleOrderB.inventory_req) < 0
    ∧ (⟨"R1", [], ⟨0, 0, 0, 0, 0⟩, 0, none⟩ : Restaurant).check_order exampleOrderB 1260 =
      some ({ (⟨"R1", [], ⟨0, 0, 0, 0, 0⟩, 0, none⟩ : Restaurant) with
          cache_inventory := some ((⟨"R1", [], ⟨0, 0, 0, 0, 0⟩, 0, none⟩ :
            Restaurant).inventory.sub exampleOrderB.inventory_req) },
        ⟨"REJECTED", 0⟩) :=
  ⟨by decide, check_order_insufficient_inventory _ _ _ (by decide)⟩

/-- Claim C1 (refuted, code bug): after the abort triggered by a
time-rejection, the speculative schedule holds the very same deque
reference as the committed schedule (shallow `copy(self.queue)`), so the
next speculative evaluation mutates the committed schedule: the
committed slot is `[]` after the abort, and merely evaluating the next
order's required time turns it into `[60]`. -/
theorem abort_shares_schedule_structure :
    exampleAfterReject.departments.map (fun d => (d.queue, d.cache)) = [([0], [0])]
    ∧ exampleAfterReject.departments.map Department.queueElems = [[[]]]
    ∧ (exampleAfterReject.required_time exampleOrderB).map
        (fun p => p.2.departments.map Department.queueElems) = some [[[60]]] := by
  decide

/-- Claim C2 (refuted, code bug): evaluating `exampleOrderB` on the
state left by a previous time-rejection again decides REJECTED, yet the
committed schedule after the evaluation is `[[60]]` where it was `[[]]`
before — not bit-for-bit equal. -/
theorem rejection_mutates_committed_schedule :
    exampleAfterReject.departments.map Department.queueElems = [[[]]]
    ∧ (exampleAfterReject.check_order exampleOrderB 0).map
        (fun p => (p.2.status, p.1.departments.map Department.queueElems))
      = some ("REJECTED", [[[60]]]) := by
  decide

/-- Claim C7, counterexample: committing a two-item order on a
capacity-1 stage leaves two finish times in the committed slot
(`copy(cache)` preserves the whole history), refuting "the committed
schedule holds at most one finish time per slot". -/
theorem committed_slot_holds_two_entries :
    (exampleKitchen.check_order exampleOrder2 1000).map
        (fun p => (p.2, p.1.departments.map Department.queueElems))
      = some (⟨"ACCEPTED", 120⟩, [[[120, 60]]])
    ∧ ¬ ([120, 60] : List Int).length ≤ 1 := by
  decide

/-- Claim C8, counterexample: `create_from_array` accepts a 5-element
input containing a negative count, and constructing a department with
capacity 0 succeeds (yielding zero slots) — the failure only surfaces
later, when allocation calls `min` on the empty slot list. -/
theorem construction_counterexample :
    Inventory.create_from_array [-1, 0, 0, 0, 0] = .ok ⟨-1, 0, 0, 0, 0⟩
    ∧ (Department.init "cooking" 0 60).queue = []
    ∧ (Department.init "cooking" 0 60).cache = []
    ∧ (Department.init "cooking" 0 60).append_time 0 = none :=
  ⟨rfl, rfl, rfl, rfl⟩

/-- Claim C8 as amended: `create_from_array` succeeds exactly on
5-element (integer) inputs with no sign check; construction never
fails, and allocation is total on any department whose slot list is
non-empty — in particular on departments constructed with positive
capacity. -/
theorem construction_validation :
    (∀ items : List Int,
      (∃ inv, Inventory.create_from_array items = .ok inv) ↔ items.length = 5)
    ∧ (∀ name cap tt t, 0 < cap →
        ∃ res, (Department.init name cap tt).append_time t = some res)
    ∧ (∀ (d : Department) (t : Int), d.cache ≠ [] →
        ∃ res, d.append_time t = some res) := by
  have h3 : ∀ (d : Department) (t : Int), d.cache ≠ [] →
      ∃ res, d.append_time t = some res := by
    intro d t h
    cases hc : d.cache with
    | nil => exact absurd hc h
    | cons c cs =>
      have hce : d.cacheElems = (getDeque d.store c).elems ::
          cs.map (fun r => (getDeque d.store r).elems) := by
        unfold Department.cacheElems; rw [hc]; rfl
      unfold Department.append_time
      rw [hce]
      exact ⟨_, rfl⟩
  refine ⟨?_, ?_, h3⟩
  · intro items
    rcases items with _ | ⟨a, _ | ⟨b, _ | ⟨c, _ | ⟨d, _ | ⟨e, _ | ⟨f, rest⟩⟩⟩⟩⟩⟩ <;>
      simp [Inventory.create_from_array]
  · intro name cap tt t hcap
    apply h3
    have hn : 0 < cap.toNat := by omega
    unfold Department.init
    simp only
    intro hmap
    rw [List.map_eq_nil_iff] at hmap
    rw [List.range_eq_nil] at hmap
    omega

theorem construction_validation_witness :
    ((∃ inv, Inventory.create_from_array [1, 2, 3, 4, 5] = .ok inv) ↔
      ([1, 2, 3, 4, 5] : List Int).length = 5)
    ∧ ((0 : Int) < 4 ∧ ∃ res, (Department.init "cooking" 4 60).append_time 0 = some res) :=
  ⟨construction_validation.1 [1, 2, 3, 4, 5],
    by decide, construction_validation.2.1 "cooking" 4 60 0 (by decide)⟩

theorem create_from_array_sub (a b : Inventory) :
    Inventory.create_from_array (a.sub b) =
      .ok ⟨a.patties - b.patties, a.lettuce - b.lettuce, a.tomato - b.tomato,
        a.veggie - b.veggie, a.bacon - b.bacon⟩ := rfl

/-- Claim C10: with a non-negative committed stock and a positive time
budget, an order with an empty item list derives the all-zero
requirement, every stage's required time for it is 0, and it is
ACCEPTED with required time 0 leaving the committed stock and the
accumulated total unchanged. -/
theorem empty_order_accepted (r : Restaurant) (o : Order) (budget : Int)
    (hitems : o.items = []) (hstock : ∀ x ∈ r.inventory.as_array, 0 ≤ x)
    (hbudget : 0 < budget) :
    o.inventory_req = ⟨0, 0, 0, 0, 0⟩
    ∧ (∀ d : Department, d.required_time o = some (0, d))
    ∧ ∃ r', r.check_order o budget = some (r', ⟨"ACCEPTED", 0⟩)
        ∧ r'.inventory = r.inventory ∧ r'.total_time = r.total_time := by
  obtain ⟨oid, ot, onum, oitems⟩ := o
  simp only at hitems
  subst hitems
  rcases r with ⟨rid, depts, ⟨p, l, t, v, b⟩, tot, ci⟩
  simp only [Inventory.as_array, List.mem_cons, List.not_mem_nil, or_false,
    forall_eq_or_imp, forall_eq] at hstock
  obtain ⟨h1, h2, h3, h4, h5⟩ := hstock
  have hreq : Order.inventory_req ⟨oid, ot, onum, []⟩ = ⟨0, 0, 0, 0, 0⟩ := rfl
  have hdiff : Inventory.sub ⟨p, l, t, v, b⟩ ⟨0, 0, 0, 0, 0⟩ = [p, l, t, v, b] := by
    simp [Inventory.sub, Inventory.as_array]
  have hmin : 0 ≤ listMin [p, l, t, v, b] := by
    simp only [listMin, List.foldl]
    exact le_min (le_min (le_min (le_min h1 h2) h3) h4) h5
  have hloop : ∀ (ds : List Department) (acc : Int),
      restaurant_rt_loop ⟨oid, ot, onum, []⟩ ds acc = some (acc, ds) := by
    intro ds
    induction ds with
    | nil => intro acc; rfl
    | cons d ds ih =>
      intro acc
      have hd : d.required_time ⟨oid, ot, onum, []⟩ = some (0, d) := rfl
      simp [restaurant_rt_loop, hd, ih]
  have hci : Restaurant.check_inventory ⟨rid, depts, ⟨p, l, t, v, b⟩, tot, ci⟩
        ⟨oid, ot, onum, []⟩
      = (true, ⟨rid, depts, ⟨p, l, t, v, b⟩, tot, some [p, l, t, v, b]⟩) := by
    simp [Restaurant.check_inventory, hreq, hdiff, hmin]
  have hrt : Restaurant.required_time
        ⟨rid, depts, ⟨p, l, t, v, b⟩, tot, some [p, l, t, v, b]⟩ ⟨oid, ot, onum, []⟩
      = some (0, ⟨rid, depts, ⟨p, l, t, v, b⟩, tot, some [p, l, t, v, b]⟩) := by
    simp [Restaurant.required_time, hloop]
  have hcommit : Restaurant.commit_inventory
        ⟨rid, depts, ⟨p, l, t, v, b⟩, tot, some [p, l, t, v, b]⟩
      = .ok ⟨rid, depts, ⟨p, l, t, v, b⟩, tot, some [p, l, t, v, b]⟩ := by
    simp [Restaurant.commit_inventory, Inventory.create_from_array]
  refine ⟨rfl, fun d => rfl, ?_⟩
  refine ⟨⟨rid, depts.map Department.commit_required_time, ⟨p, l, t, v, b⟩, tot,
    some [p, l, t, v, b]⟩, ?_, rfl, rfl⟩
  simp [Restaurant.check_order, hci, hrt, hcommit, hbudget,
    Restaurant.commit_required_time]

theorem empty_order_accepted_witness :
    (⟨"R1", 0, "O9", []⟩ : Order).items = []
    ∧ (∀ x ∈ exampleKitchen.inventory.as_array, (0 : Int) ≤ x)
    ∧ (0 : Int) < 1260
    ∧ ((⟨"R1", 0, "O9", []⟩ : Order).inventory_req = ⟨0, 0, 0, 0, 0⟩
      ∧ (∀ d : Department, d.required_time ⟨"R1", 0, "O9", []⟩ = some (0, d))
      ∧ ∃ r', exampleKitchen.check_order ⟨"R1", 0, "O9", []⟩ 1260 = some (r', ⟨"ACCEPTED", 0⟩)
          ∧ r'.inventory = exampleKitchen.inventory
          ∧ r'.total_time = exampleKitchen.total_time) :=
  ⟨rfl, by decide, by decide,
    empty_order_accepted exampleKitchen ⟨"R1", 0, "O9", []⟩ 1260 rfl (by decide) (by decide)⟩

/-- Claim C3: when the inventory check succeeds and the speculative
evaluation computes total time `reqt`, the order is ACCEPTED iff
`reqt` is strictly below the budget; on acceptance the committed stock
becomes exactly the element-wise difference, `reqt` is added to the
accumulated total, and the decision carries status ACCEPTED and required
time `reqt`. -/
theorem check_order_accept_iff (r : Restaurant) (o : Order) (budget reqt : Int)
    (r2 : Restaurant)
    (hinv : 0 ≤ listMin (r.inventory.sub o.inventory_req))
    (hrt : Restaurant.required_time
        { r with cache_inventory := some (r.inventory.sub o.inventory_req) } o
      = some (reqt, r2)) :
    ∃ r' res, r.check_order o budget = some (r', res)
      ∧ (res.status = "ACCEPTED" ↔ reqt < budget)
      ∧ (reqt < budget →
          res = ⟨"ACCEPTED", reqt⟩
          ∧ r'.inventory.as_array = r.inventory.sub o.inventory_req
          ∧ r'.total_time = r.total_time + reqt)
      ∧ (¬ reqt < budget → res = ⟨"REJECTED", 0⟩) := by
  have hpres := required_time_preserves_fields _ _ _ _ hrt
  have hci : r.check_inventory o
      = (true, { r with cache_inventory := some (r.inventory.sub o.inventory_req) }) := by
    simp [Restaurant.check_inventory, hinv]
  by_cases hb : reqt < budget
  · have hcache : r2.cache_inventory = some (r.inventory.sub o.inventory_req) :=
      hpres.2.2.2
    have hcommit : r2.commit_inventory = .ok { r2 with inventory :=
        ⟨r.inventory.patties - o.inventory_req.patties,
          r.inventory.lettuce - o.inventory_req.lettuce,
          r.inventory.tomato - o.inventory_req.tomato,
          r.inventory.veggie - o.inventory_req.veggie,
          r.inventory.bacon - o.inventory_req.bacon⟩ } := by
      simp [Restaurant.commit_inventory, hcache, create_from_array_sub]
    have hco : r.check_order o budget = some
        (⟨r2.id, r2.departments.map Department.commit_required_time,
          ⟨r.inventory.patties - o.inventory_req.patties,
            r.inventory.lettuce - o.inventory_req.lettuce,
            r.inventory.tomato - o.inventory_req.tomato,
            r.inventory.veggie - o.inventory_req.veggie,
            r.inventory.bacon - o.inventory_req.bacon⟩,
          r2.total_time + reqt, r2.cache_inventory⟩, ⟨"ACCEPTED", reqt⟩) := by
      simp [Restaurant.check_order, hci, hrt, hb, hcommit,
        Restaurant.commit_required_time]
    refine ⟨_, _, hco, by simp [hb], fun _ => ⟨rfl, rfl, ?_⟩, fun hc => absurd hb hc⟩
    have ht : r2.total_time = r.total_time := hpres.2.2.1
    simp [ht]
  · have hco : r.check_order o budget
        = some (r2.reverse_required_time, ⟨"REJECTED", 0⟩) := by
      simp [Restaurant.check_order, hci, hrt, hb]
    exact ⟨_, _, hco, by simp [hb], fun hc => absurd hc hb, fun _ => rfl⟩

theorem check_order_accept_iff_witness :
    (0 ≤ listMin (exampleKitchen.inventory.sub exampleOrderB.inventory_req))
    ∧ Restaurant.required_time
        { exampleKitchen with
          cache_inventory := some (exampleKitchen.inventory.sub exampleOrderB.inventory_req) }
        exampleOrderB = some (60, exampleR2W)
    ∧ (∃ r' res, exampleKitchen.check_order exampleOrderB 1260 = some (r', res)
        ∧ (res.status = "ACCEPTED" ↔ (60 : Int) < 1260)
        ∧ ((60 : Int) < 1260 →
            res = ⟨"ACCEPTED", 60⟩
            ∧ r'.inventory.as_array = exampleKitchen.inventory.sub exampleOrderB.inventory_req
            ∧ r'.total_time = exampleKitchen.total_time + 60)
        ∧ (¬ (60 : Int) < 1260 → res = ⟨"REJECTED", 0⟩)) :=
  ⟨by decide, by decide,
    check_order_accept_iff exampleKitchen exampleOrderB 1260 60 exampleR2W
      (by decide) (by decide)⟩

theorem rt_loop_to_trace (ot : Int) :
    ∀ (items : List (List Char)) (d : Department) (acc rt : Int) (d' : Department),
      required_time_loop ot d items acc = some (rt, d') →
      ∃ ts, append_times ot d items.length = some (ts, d') ∧ rt = ts.foldl max acc := by
  intro items
  induction items with
  | nil =>
    intro d acc rt d' h
    unfold required_time_loop at h
    cases h
    exact ⟨[], rfl, rfl⟩
  | cons x rest ih =>
    intro d acc rt d' h
    unfold required_time_loop at h
    cases ha : d.append_time ot with
    | none => rw [ha] at h; exact absurd h (by simp)
    | some p =>
      obtain ⟨t, d1⟩ := p
      rw [ha] at h
      obtain ⟨ts, hts, hrt⟩ := ih d1 (max acc t) rt d' h
      refine ⟨t :: ts, ?_, hrt⟩
      simp [append_times, ha, hts]

theorem waitTime_nonneg (l : List Int) (ot : Int) : 0 ≤ waitTime l ot := by
  cases l with
  | nil => exact le_refl 0
  | cons f fs => exact le_max_right _ _

theorem append_time_result (d : Department) (ot t : Int) (d' : Department)
    (h : d.append_time ot = some (t, d')) :
    d'.task_time = d.task_time ∧ (0 ≤ d.task_time → 0 ≤ t) := by
  unfold Department.append_time at h
  cases hm : minIdx d.cacheElems with
  | none => rw [hm] at h; simp at h
  | some i =>
    rw [hm] at h
    simp only [Option.some.injEq, Prod.mk.injEq] at h
    obtain ⟨h1, h2⟩ := h
    subst h2
    refine ⟨rfl, ?_⟩
    intro htt
    have hw : 0 ≤ waitTime (getDeque d.store (d.cache.getD i 0)).elems ot :=
      waitTime_nonneg _ _
    omega

theorem append_times_props (ot : Int) :
    ∀ (n : Nat) (d : Department) (ts : List Int) (d' : Department),
      append_times ot d n = some (ts, d') →
      (0 ≤ d.task_time → ∀ x ∈ ts, 0 ≤ x) ∧ d'.task_time = d.task_time := by
  intro n
  induction n with
  | zero =>
    intro d ts d' h
    unfold append_times at h
    cases h
    exact ⟨fun _ x hx => absurd hx (List.not_mem_nil x), rfl⟩
  | succ n ih =>
    intro d ts d' h
    cases ha : d.append_time ot with
    | none =>
      simp only [append_times, ha] at h
      exact Option.noConfusion h
    | some p =>
      obtain ⟨t, d1⟩ := p
      simp only [append_times, ha] at h
      cases hb : append_times ot d1 n with
      | none =>
        simp only [hb] at h
        exact Option.noConfusion h
      | some q =>
        obtain ⟨ts1, d2⟩ := q
        simp only [hb, Option.some.injEq, Prod.mk.injEq] at h
        obtain ⟨hts, hd⟩ := h
        subst hts
        subst hd
        obtain ⟨hmem, htask⟩ := ih d1 ts1 d2 hb
        obtain ⟨htask1, hpos⟩ := append_time_result d ot t d1 ha
        refine ⟨?_, htask.trans htask1⟩
        intro htt x hx
        rcases List.mem_cons.mp hx with h1 | h1
        · subst h1; exact hpos htt
        · exact hmem (htask1 ▸ htt) x h1

theorem foldl_max_le :
    ∀ (l : List Int) (a : Int), a ≤ l.foldl max a ∧ ∀ x ∈ l, x ≤ l.foldl max a := by
  intro l
  induction l with
  | nil => intro a; exact ⟨le_refl a, fun x hx => absurd hx (List.not_mem_nil x)⟩
  | cons y l ih =>
    intro a
    have hstep : (y :: l).foldl max a = l.foldl max (max a y) := rfl
    refine ⟨?_, ?_⟩
    · rw [hstep]; exact le_trans (le_max_left a y) (ih (max a y)).1
    · intro x hx
      rw [hstep]
      rcases List.mem_cons.mp hx with h1 | h1
      · subst h1; exact le_trans (le_max_right a x) (ih (max a x)).1
      · exact (ih (max a y)).2 x h1

theorem foldl_max_mem :
    ∀ (l : List Int) (a : Int), l.foldl max a = a ∨ l.foldl max a ∈ l := by
  intro l
  induction l with
  | nil => intro a; exact Or.inl rfl
  | cons y l ih =>
    intro a
    have hstep : (y :: l).foldl max a = l.foldl max (max a y) := rfl
    rw [hstep]
    rcases ih (max a y) with h1 | h1
    · rcases max_choice a y with h2 | h2
      · exact Or.inl (h1.trans h2)
      · exact Or.inr (by rw [h1, h2]; exact List.mem_cons_self y l)
    · exact Or.inr (List.mem_cons_of_mem y h1)

theorem rt_loop_chain (o : Order) :
    ∀ (ds : List Department) (acc T : Int) (ds' : List Department),
      restaurant_rt_loop o ds acc = some (T, ds') →
      ∃ ts, deptChain o ds ts ds' ∧ T = acc + ts.sum := by
  intro ds
  induction ds with
  | nil =>
    intro acc T ds' h
    unfold restaurant_rt_loop at h
    cases h
    exact ⟨[], trivial, by simp⟩
  | cons d ds ih =>
    intro acc T ds' h
    cases ha : d.required_time o with
    | none =>
      simp only [restaurant_rt_loop, ha] at h
      exact Option.noConfusion h
    | some p =>
      obtain ⟨t, d1⟩ := p
      simp only [restaurant_rt_loop, ha] at h
      cases hb : restaurant_rt_loop o ds (acc + t) with
      | none =>
        simp only [hb] at h
        exact Option.noConfusion h
      | some q =>
        obtain ⟨T0, ds2⟩ := q
        simp only [hb, Option.some.injEq, Prod.mk.injEq] at h
        obtain ⟨hT, hds⟩ := h
        subst hT
        subst hds
        obtain ⟨ts, hc, hsum⟩ := ih (acc + t) T0 ds2 hb
        refine ⟨t :: ts, ⟨ha, hc⟩, ?_⟩
        simp only [List.sum_cons]
        omega

/-- Claim C5: a stage's required time for an order is the maximum of the
per-item durations returned across the order's items (`append_times` is
the trace of those durations), and the kitchen's total is the sum of the
per-stage required times, each stage evaluated on the state left by the
previous one but against the same order (hence the order's original
arrival time). -/
theorem required_time_aggregation :
    (∀ (d : Department) (o : Order) (rt : Int) (d' : Department),
      d.required_time o = some (rt, d') →
      ∃ ts, append_times o.order_time d o.items.length = some (ts, d')
        ∧ rt = ts.foldl max 0
        ∧ (0 ≤ d.task_time → ts ≠ [] → rt ∈ ts ∧ ∀ x ∈ ts, x ≤ rt))
    ∧ (∀ (r : Restaurant) (o : Order) (T : Int) (r' : Restaurant),
      r.required_time o = some (T, r') →
      ∃ ts, deptChain o r.departments ts r'.departments ∧ T = ts.sum) := by
  constructor
  · intro d o rt d' h
    obtain ⟨ts, hts, hrt⟩ := rt_loop_to_trace o.order_time o.items d 0 rt d' h
    refine ⟨ts, hts, hrt, ?_⟩
    intro htt hne
    have hnn : ∀ x ∈ ts, 0 ≤ x :=
      (append_times_props o.order_time o.items.length d ts d' hts).1 htt
    cases ts with
    | nil => exact absurd rfl hne
    | cons y l =>
      have hy : 0 ≤ y := hnn y (List.mem_cons_self y l)
      have hfold : (y :: l).foldl max 0 = l.foldl max y := by
        have : max 0 y = y := max_eq_right hy
        simp [List.foldl, this]
      subst hrt
      rw [hfold]
      constructor
      · rcases foldl_max_mem l y with h1 | h1
        · rw [h1]; exact List.mem_cons_self y l
        · exact List.mem_cons_of_mem y h1
      · intro x hx
        rcases List.mem_cons.mp hx with h1 | h1
        · subst h1; exact (foldl_max_le l x).1
        · exact (foldl_max_le l y).2 x h1
  · intro r o T r' h
    cases hm : restaurant_rt_loop o r.departments 0 with
    | none =>
      simp only [Restaurant.required_time, hm] at h
      exact Option.noConfusion h
    | some p =>
      obtain ⟨pt, pds⟩ := p
      simp only [Restaurant.required_time, hm, Option.some.injEq,
        Prod.mk.injEq] at h
      obtain ⟨hT, hr⟩ := h
      subst hT
      subst hr
      obtain ⟨ts, hc, hsum⟩ := rt_loop_chain o r.departments 0 pt pds hm
      exact ⟨ts, hc, by omega⟩

theorem required_time_aggregation_witness :
    (Department.init "cooking" 1 60).required_time exampleOrderB = some (60, exampleDept')
    ∧ (∃ ts, append_times exampleOrderB.order_time (Department.init "cooking" 1 60)
          exampleOrderB.items.length = some (ts, exampleDept')
        ∧ (60 : Int) = ts.foldl max 0
        ∧ (0 ≤ (Department.init "cooking" 1 60).task_time → ts ≠ [] →
            (60 : Int) ∈ ts ∧ ∀ x ∈ ts, x ≤ (60 : Int))) :=
  ⟨by decide,
    required_time_aggregation.1 (Department.init "cooking" 1 60) exampleOrderB 60
      exampleDept' (by decide)⟩

theorem lexLt_irrefl : ∀ l : List Int, lexLt l l = false := by
  intro l
  induction l with
  | nil => rfl
  | cons a as ih => simp [lexLt, ih]

theorem lexLt_trans : ∀ a b c : List Int,
    lexLt a b = true → lexLt b c = true → lexLt a c = true := by
  intro a b
  induction b generalizing a with
  | nil => intro c hab; cases a <;> simp [lexLt] at hab
  | cons y ys ih =>
    intro c hab hbc
    cases c with
    | nil => simp [lexLt] at hbc
    | cons z zs =>
      cases a with
      | nil => rfl
      | cons x xs =>
        simp only [lexLt, Bool.or_eq_true, decide_eq_true_eq, Bool.and_eq_true,
          beq_iff_eq] at hab hbc ⊢
        rcases hab with h1 | ⟨h1, h2⟩ <;> rcases hbc with h3 | ⟨h3, h4⟩
        · exact Or.inl (h1.trans h3)
        · exact Or.inl (h3 ▸ h1)
        · exact Or.inl (h1 ▸ h3)
        · exact Or.inr ⟨h1.trans h3, ih xs zs h2 h4⟩

theorem bestIdx_lt : ∀ (es : List (List Int)) (i best : Nat) (bestE : List Int),
    best < i → bestIdx es i best bestE < i + es.length := by
  intro es
  induction es with
  | nil => intro i best bestE h; simpa [bestIdx] using h
  | cons e es ih =>
    intro i best bestE h
    cases hlt : lexLt e bestE with
    | true =>
      have hrec := ih (i + 1) i e (Nat.lt_succ_self i)
      simp [bestIdx, hlt]
      omega
    | false =>
      have hrec := ih (i + 1) best bestE (by omega)
      simp [bestIdx, hlt]
      omega

theorem bestIdx_min (f : Nat → List Int) :
    ∀ (es : List (List Int)) (i best : Nat) (bestE : List Int),
      f best = bestE →
      (∀ k, k < es.length → f (i + k) = es.getD k []) →
      (∀ j, j < i → lexLt (f j) bestE = false) →
      ∀ j, j < i + es.length → lexLt (f j) (f (bestIdx es i best bestE)) = false := by
  intro es
  induction es with
  | nil =>
    intro i best bestE hbest hsuffix hmin j hj
    simp only [bestIdx]
    rw [hbest]
    exact hmin j (by simpa using hj)
  | cons e es ih =>
    intro i best bestE hbest hsuffix hmin j hj
    have hfi : f i = e := by
      have h0 := hsuffix 0 (by simp)
      simpa using h0
    have hsuffix' : ∀ k, k < es.length → f ((i + 1) + k) = es.getD k [] := by
      intro k hk
      have hx := hsuffix (k + 1) (by simp only [List.length_cons]; omega)
      have harith : i + (k + 1) = (i + 1) + k := by omega
      rw [harith] at hx
      rw [hx]
      rfl
    have hjbound : j < (i + 1) + es.length := by
      simp only [List.length_cons] at hj; omega
    cases hlt : lexLt e bestE with
    | true =>
      have hres : bestIdx (e :: es) i best bestE = bestIdx es (i + 1) i e := by
        simp [bestIdx, hlt]
      rw [hres]
      have hmin' : ∀ j', j' < i + 1 → lexLt (f j') e = false := by
        intro j' hj'
        by_cases hji : j' = i
        · subst hji; rw [hfi]; exact lexLt_irrefl e
        · have hj2 : j' < i := by omega
          cases hex : lexLt (f j') e with
          | false => rfl
          | true =>
            have htr := lexLt_trans (f j') e bestE hex hlt
            rw [hmin j' hj2] at htr
            exact absurd htr (by simp)
      exact ih (i + 1) i e hfi hsuffix' hmin' j hjbound
    | false =>
      have hres : bestIdx (e :: es) i best bestE = bestIdx es (i + 1) best bestE := by
        simp [bestIdx, hlt]
      rw [hres]
      have hmin' : ∀ j', j' < i + 1 → lexLt (f j') bestE = false := by
        intro j' hj'
        by_cases hji : j' = i
        · subst hji; rw [hfi]; exact hlt
        · exact hmin j' (by omega)
      exact ih (i + 1) best bestE hbest hsuffix' hmin' j hjbound

theorem minIdx_spec (es : List (List Int)) (i : Nat) (h : minIdx es = some i) :
    i < es.length ∧ ∀ j, j < es.length → lexLt (es.getD j []) (es.getD i []) = false := by
  cases es with
  | nil => simp [minIdx] at h
  | cons e es' =>
    simp only [minIdx, Option.some.injEq] at h
    subst h
    constructor
    · have hb := bestIdx_lt es' 1 0 e (by omega)
      simp only [List.length_cons]
      omega
    · intro j hj
      have h1 : (fun k => (e :: es').getD k []) 0 = e := rfl
      have h2 : ∀ k, k < es'.length →
          (fun k => (e :: es').getD k []) (1 + k) = es'.getD k [] := by
        intro k hk
        have harith : 1 + k = k + 1 := Nat.add_comm 1 k
        simp only [harith]
        rfl
      have h3 : ∀ j', j' < 1 → lexLt ((fun k => (e :: es').getD k []) j') e = false := by
        intro j' hj'
        have hz : j' = 0 := by omega
        subst hz
        exact lexLt_irrefl e
      exact bestIdx_min (fun k => (e :: es').getD k []) es' 1 0 e h1 h2 h3 j
        (by simp only [List.length_cons] at hj; omega)

theorem getDeque_set_self (store : List Deque) (r : Nat) (q : Deque)
    (h : r < store.length) : getDeque (store.set r q) r = q := by
  unfold getDeque
  rw [List.getD_eq_getElem?_getD, List.getElem?_set]
  simp [h]

theorem getDeque_set_ne (store : List Deque) (r x : Nat) (q : Deque)
    (h : x ≠ r) : getDeque (store.set r q) x = getDeque store x := by
  unfold getDeque
  rw [List.getD_eq_getElem?_getD, List.getD_eq_getElem?_getD,
    List.getElem?_set_ne (Ne.symm h)]

theorem cacheElems_getD (d : Department) (i : Nat) (hi : i < d.cache.length) :
    d.cacheElems.getD i [] = (getDeque d.store (d.cache.getD i 0)).elems := by
  unfold Department.cacheElems
  rw [List.getD_eq_getElem _ _ (by simpa using hi), List.getElem_map,
    List.getD_eq_getElem _ _ hi]

theorem cacheElems_set_store (d : Department) (i : Nat) (q' : Deque)
    (hi : i < d.cache.length) (hnd : d.cache.Nodup)
    (hval : ∀ x ∈ d.cache, x < d.store.length) :
    Department.cacheElems { d with store := d.store.set (d.cache.getD i 0) q' }
      = d.cacheElems.set i q'.elems := by
  apply List.ext_getElem?
  intro n
  unfold Department.cacheElems
  simp only [List.getElem?_set, List.getElem?_map, List.length_map]
  by_cases hni : i = n
  · subst hni
    rw [if_pos rfl, if_pos hi, List.getElem?_eq_getElem hi]
    simp only [Option.map_some']
    have hr : d.cache.getD i 0 = d.cache[i] := List.getD_eq_getElem _ _ hi
    rw [hr, getDeque_set_self _ _ _ (hval _ (List.getElem_mem hi))]
  · rw [if_neg hni]
    by_cases hn : n < d.cache.length
    · rw [List.getElem?_eq_getElem hn]
      simp only [Option.map_some', Option.some.injEq]
      have hr : d.cache.getD i 0 = d.cache[i] := List.getD_eq_getElem _ _ hi
      have hne : d.cache[n] ≠ d.cache[i] := by
        intro hc
        exact hni (((hnd.getElem_inj_iff).mp hc).symm)
      rw [hr, getDeque_set_ne _ _ _ _ hne]
    · have hnone : d.cache[n]? = none := by
        rw [List.getElem?_eq_none_iff]
        omega
      rw [hnone]
      rfl

/-- Claim C4: `append_time` selects the slot whose history is the first
lexicographic minimum (an empty history sorts below any non-empty one,
so an idle slot is always preferred); if the selected slot's most recent
proposed finish time is `f` the returned duration is
`task_time + max(f - t, 0)` and `t + task_time + max(f - t, 0)` is
pushed to the front of that slot's speculative history (subject to the
deque bound); if the selected slot is idle the returned duration is
exactly `task_time`. -/
theorem append_time_allocation (d : Department) (t : Int) (i : Nat)
    (hsel : minIdx d.cacheElems = some i)
    (hnd : d.cache.Nodup)
    (hval : ∀ x ∈ d.cache, x < d.store.length) :
    (∀ j, j < d.cache.length →
      lexLt (d.cacheElems.getD j []) (d.cacheElems.getD i []) = false)
    ∧ ((∃ j, j < d.cache.length ∧ d.cacheElems.getD j [] = []) →
        d.cacheElems.getD i [] = [])
    ∧ (∀ f rest, d.cacheElems.getD i [] = f :: rest →
        ∃ d', d.append_time t = some (d.task_time + max (f - t) 0, d')
          ∧ d'.cacheElems = d.cacheElems.set i
              (((t + d.task_time + max (f - t) 0) :: f :: rest).take
                (getDeque d.store (d.cache.getD i 0)).maxlen))
    ∧ (d.cacheElems.getD i [] = [] →
        ∃ d', d.append_time t = some (d.task_time, d')
          ∧ d'.cacheElems = d.cacheElems.set i
              ([t + d.task_time].take (getDeque d.store (d.cache.getD i 0)).maxlen)) := by
  obtain ⟨hilen, hmin⟩ := minIdx_spec _ _ hsel
  have hlen : d.cacheElems.length = d.cache.length := List.length_map _ _
  have hi' : i < d.cache.length := by omega
  have hpart1 : ∀ j, j < d.cache.length →
      lexLt (d.cacheElems.getD j []) (d.cacheElems.getD i []) = false := by
    intro j hj
    exact hmin j (by omega)
  have hQ : d.cacheElems.getD i [] = (getDeque d.store (d.cache.getD i 0)).elems :=
    cacheElems_getD d i hi'
  refine ⟨hpart1, ?_, ?_, ?_⟩
  · rintro ⟨j, hj, hje⟩
    cases hcase : d.cacheElems.getD i [] with
    | nil => rfl
    | cons f fs =>
      have hlex := hpart1 j hj
      rw [hje, hcase] at hlex
      exact absurd hlex (by simp [lexLt])
  · intro f rest hf
    rw [hQ] at hf
    have hw : waitTime (getDeque d.store (d.cache.getD i 0)).elems t = max (f - t) 0 := by
      rw [hf]; rfl
    have happ : d.append_time t
        = some (d.task_time + max (f - t) 0,
          { d with
            store :=
              d.store.set (d.cache.getD i 0)
                ((getDeque d.store (d.cache.getD i 0)).appendleft
                  (t + d.task_time + max (f - t) 0)) }) := by
      simp only [Department.append_time, hsel, hw]
    refine ⟨_, happ, ?_⟩
    rw [cacheElems_set_store d i _ hi' hnd hval]
    congr 1
    simp only [Deque.appendleft]
    rw [hf]
  · intro hf
    rw [hQ] at hf
    have hw : waitTime (getDeque d.store (d.cache.getD i 0)).elems t = 0 := by
      rw [hf]; rfl
    have happ : d.append_time t
        = some (d.task_time,
          { d with
            store :=
              d.store.set (d.cache.getD i 0)
                ((getDeque d.store (d.cache.getD i 0)).appendleft
                  (t + d.task_time + 0)) }) := by
      simp only [Department.append_time, hsel, hw, add_zero]
    refine ⟨_, happ, ?_⟩
    rw [cacheElems_set_store d i _ hi' hnd hval]
    congr 1
    simp only [Deque.appendleft]
    rw [hf, add_zero]

theorem append_time_allocation_witness :
    minIdx exampleDeptTwoSlots.cacheElems = some 1
    ∧ exampleDeptTwoSlots.cache.Nodup
    ∧ (∀ x ∈ exampleDeptTwoSlots.cache, x < exampleDeptTwoSlots.store.length)
    ∧ ((∀ j, j < exampleDeptTwoSlots.cache.length →
        lexLt (exampleDeptTwoSlots.cacheElems.getD j [])
          (exampleDeptTwoSlots.cacheElems.getD 1 []) = false)
      ∧ ((∃ j, j < exampleDeptTwoSlots.cache.length
            ∧ exampleDeptTwoSlots.cacheElems.getD j [] = []) →
          exampleDeptTwoSlots.cacheElems.getD 1 [] = [])
      ∧ (∀ f rest, exampleDeptTwoSlots.cacheElems.getD 1 [] = f :: rest →
          ∃ d', exampleDeptTwoSlots.append_time 0
              = some (exampleDeptTwoSlots.task_time + max (f - 0) 0, d')
            ∧ d'.cacheElems = exampleDeptTwoSlots.cacheElems.set 1
                (((0 + exampleDeptTwoSlots.task_time + max (f - 0) 0) :: f :: rest).take
                  (getDeque exampleDeptTwoSlots.store
                    (exampleDeptTwoSlots.cache.getD 1 0)).maxlen))
      ∧ (exampleDeptTwoSlots.cacheElems.getD 1 [] = [] →
          ∃ d', exampleDeptTwoSlots.append_time 0
              = some (exampleDeptTwoSlots.task_time, d')
            ∧ d'.cacheElems = exampleDeptTwoSlots.cacheElems.set 1
                ([0 + exampleDeptTwoSlots.task_time].take
                  (getDeque exampleDeptTwoSlots.store
                    (exampleDeptTwoSlots.cache.getD 1 0)).maxlen))) :=
  ⟨by decide, by decide, by decide,
    append_time_allocation exampleDeptTwoSlots 0 1 (by decide) (by decide) (by decide)⟩

theorem getDeque_mem (store : List Deque) (r : Nat) (h : r < store.length) :
    getDeque store r ∈ store := by
  unfold getDeque
  rw [List.getD_eq_getElem _ _ h]
  exact List.getElem_mem h

theorem getDeque_append_left (store ext : List Deque) (r : Nat)
    (h : r < store.length) : getDeque (store ++ ext) r = getDeque store r := by
  unfold getDeque
  rw [List.getD_eq_getElem?_getD, List.getD_eq_getElem?_getD,
    List.getElem?_append_left h]

theorem getDeque_append_self (store : List Deque) (x : Deque) :
    getDeque (store ++ [x]) store.length = x := by
  unfold getDeque
  rw [List.getD_eq_getElem?_getD, List.getElem?_append_right (le_refl _)]
  simp

theorem init_wf (name : String) (cap tt : Int) : (Department.init name cap tt).wf := by
  unfold Department.wf Department.init
  refine ⟨by simp, by simp, ?_, ?_, ?_⟩
  · intro r hr
    simp only [List.mem_range] at hr
    simp only [List.length_append, List.length_map, List.length_range]
    omega
  · intro x hx
    simp only [List.mem_map, List.mem_range] at hx
    obtain ⟨i, hi, rfl⟩ := hx
    simp only [List.length_append, List.length_map, List.length_range]
    omega
  · intro q hq
    rcases List.mem_append.mp hq with h | h <;>
      · obtain ⟨_, _, rfl⟩ := List.mem_map.mp h
        exact ⟨by decide, by decide⟩

theorem init_contents (name : String) (cap tt : Int) :
    (Department.init name cap tt).cacheElems = (Department.init name cap tt).queueElems := by
  obtain ⟨hqlen, hclen, hqv, hcv, _⟩ := init_wf name cap tt
  have hmem : ∀ q ∈ (Department.init name cap tt).store, q.elems = [] := by
    intro q hq
    rcases List.mem_append.mp hq with h | h <;>
      · obtain ⟨_, _, rfl⟩ := List.mem_map.mp h
        rfl
  have hfc : ∀ x ∈ (Department.init name cap tt).cache,
      (getDeque (Department.init name cap tt).store x).elems = ([] : List Int) :=
    fun x hx => hmem _ (getDeque_mem _ _ (hcv x hx))
  have hfq : ∀ x ∈ (Department.init name cap tt).queue,
      (getDeque (Department.init name cap tt).store x).elems = ([] : List Int) :=
    fun x hx => hmem _ (getDeque_mem _ _ (hqv x hx))
  unfold Department.cacheElems Department.queueElems
  rw [List.map_congr_left hfc, List.map_congr_left hfq, List.map_const',
    List.map_const', hclen, hqlen]

theorem append_time_wf (d : Department) (t rt : Int) (d' : Department)
    (hwf : d.wf) (h : d.append_time t = some (rt, d')) : d'.wf := by
  obtain ⟨hq, hc, hqv, hcv, hb⟩ := hwf
  unfold Department.append_time at h
  cases hm : minIdx d.cacheElems with
  | none => rw [hm] at h; exact absurd h (by simp)
  | some i =>
    rw [hm] at h
    simp only [Option.some.injEq, Prod.mk.injEq] at h
    obtain ⟨h1, h2⟩ := h
    subst h2
    have hi' : i < d.cache.length := by
      obtain ⟨hi, _⟩ := minIdx_spec _ _ hm
      have hlen : d.cacheElems.length = d.cache.length := List.length_map _ _
      omega
    have hRv : d.cache.getD i 0 < d.store.length := by
      rw [List.getD_eq_getElem _ _ hi']
      exact hcv _ (List.getElem_mem hi')
    have hq0 := hb (getDeque d.store (d.cache.getD i 0)) (getDeque_mem _ _ hRv)
    refine ⟨hq, hc, ?_, ?_, ?_⟩
    · intro r hr; simp only [List.length_set]; exact hqv r hr
    · intro r hr; simp only [List.length_set]; exact hcv r hr
    · intro q hq'
      rcases List.mem_or_eq_of_mem_set hq' with hmem | heq
      · exact hb q hmem
      · subst heq
        refine ⟨by simpa [Deque.appendleft] using hq0.1, ?_⟩
        simp only [Deque.appendleft]
        rw [List.length_take]
        exact min_le_left _ _

theorem required_time_loop_wf (ot : Int) :
    ∀ (items : List (List Char)) (d : Department) (acc rt : Int) (d' : Department),
      d.wf → required_time_loop ot d items acc = some (rt, d') → d'.wf := by
  intro items
  induction items with
  | nil =>
    intro d acc rt d' hwf h
    unfold required_time_loop at h
    cases h
    exact hwf
  | cons x rest ih =>
    intro d acc rt d' hwf h
    unfold required_time_loop at h
    cases ha : d.append_time ot with
    | none => rw [ha] at h; exact absurd h (by simp)
    | some p =>
      obtain ⟨t1, d1⟩ := p
      rw [ha] at h
      exact ih d1 (max acc t1) rt d' (append_time_wf d ot t1 d1 hwf ha) h

theorem commit_loop_spec :
    ∀ (cache : List Nat) (store : List Deque),
      (∀ r ∈ cache, r < store.length) →
      (∀ q ∈ store, q.maxlen ≤ 6 ∧ q.elems.length ≤ q.maxlen) →
      (commit_loop store cache).2.length = cache.length
      ∧ (∀ r ∈ (commit_loop store cache).2, r < (commit_loop store cache).1.length)
      ∧ (∀ q ∈ (commit_loop store cache).1, q.maxlen ≤ 6 ∧ q.elems.length ≤ q.maxlen)
      ∧ (∃ ext, (commit_loop store cache).1 = store ++ ext)
      ∧ ((commit_loop store cache).2.map
            (fun r => (getDeque (commit_loop store cache).1 r).elems)
          = cache.map (fun r => (getDeque store r).elems)) := by
  intro cache
  induction cache with
  | nil =>
    intro store hval hb
    exact ⟨rfl, fun r hr => absurd hr (List.not_mem_nil r), hb,
      ⟨[], by simp [commit_loop]⟩, rfl⟩
  | cons r rs ih =>
    intro store hval hb
    have hrv : r < store.length := hval r (List.mem_cons_self r rs)
    have hq0 := hb (getDeque store r) (getDeque_mem _ _ hrv)
    have hnewb : ((if (getDeque store r).elems.isEmpty then (⟨1, []⟩ : Deque)
        else ⟨(getDeque store r).maxlen, (getDeque store r).elems⟩) : Deque).maxlen ≤ 6
        ∧ ((if (getDeque store r).elems.isEmpty then (⟨1, []⟩ : Deque)
        else ⟨(getDeque store r).maxlen, (getDeque store r).elems⟩) : Deque).elems.length
          ≤ ((if (getDeque store r).elems.isEmpty then (⟨1, []⟩ : Deque)
        else ⟨(getDeque store r).maxlen, (getDeque store r).elems⟩) : Deque).maxlen := by
      by_cases he : (getDeque store r).elems.isEmpty
      · simp [he]
      · simp only [he, if_false]
        exact hq0
    set newq : Deque := if (getDeque store r).elems.isEmpty then (⟨1, []⟩ : Deque)
      else ⟨(getDeque store r).maxlen, (getDeque store r).elems⟩ with hnewq
    have hvalnew : ∀ x ∈ rs, x < (store ++ [newq]).length := by
      intro x hx
      have := hval x (List.mem_cons_of_mem r hx)
      simp only [List.length_append, List.length_cons, List.length_nil]
      omega
    have hbnew : ∀ q ∈ store ++ [newq], q.maxlen ≤ 6 ∧ q.elems.length ≤ q.maxlen := by
      intro q hq
      rcases List.mem_append.mp hq with h | h
      · exact hb q h
      · have : q = newq := by simpa using h
        subst this
        exact hnewb
    obtain ⟨ihlen, ihref, ihb, ⟨ext, ihext⟩, ihmap⟩ := ih (store ++ [newq]) hvalnew hbnew
    have hunfold : commit_loop store (r :: rs)
        = ((commit_loop (store ++ [newq]) rs).1,
           store.length :: (commit_loop (store ++ [newq]) rs).2) := by
      simp only [commit_loop, hnewq]
    rw [hunfold]
    refine ⟨by simp [ihlen], ?_, ihb, ?_, ?_⟩
    · intro x hx
      rcases List.mem_cons.mp hx with heq | hx'
      · subst heq
        rw [ihext]
        simp only [List.length_append, List.length_cons, List.length_nil]
        omega
      · exact ihref x hx'
    · exact ⟨[newq] ++ ext, by rw [ihext, List.append_assoc]⟩
    · simp only [List.map_cons]
      have hhead : (getDeque (commit_loop (store ++ [newq]) rs).1 store.length).elems
          = (getDeque store r).elems := by
        rw [ihext, getDeque_append_left _ _ _ (by simp), getDeque_append_self]
        by_cases he : (getDeque store r).elems.isEmpty
        · rw [hnewq, if_pos he]
          exact (List.isEmpty_iff.mp he).symm
        · rw [hnewq, if_neg he]
      rw [hhead, ihmap]
      congr 1
      apply List.map_congr_left
      intro x hx
      rw [getDeque_append_left _ _ _ (hval x (List.mem_cons_of_mem r hx))]

theorem commit_wf (d : Department) (hwf : d.wf) :
    d.commit_required_time.wf
    ∧ d.commit_required_time.queueElems = d.cacheElems
    ∧ d.commit_required_time.cacheElems = d.cacheElems := by
  obtain ⟨hq, hc, hqv, hcv, hb⟩ := hwf
  obtain ⟨hlen, href, hbb, ⟨ext, hext⟩, hmap⟩ := commit_loop_spec d.cache d.store hcv hb
  unfold Department.commit_required_time
  refine ⟨⟨?_, hc, href, ?_, hbb⟩, ?_, ?_⟩
  · simpa [hlen] using hc
  · intro x hx
    rw [hext]
    simp only [List.length_append]
    have := hcv x hx
    omega
  · unfold Department.queueElems Department.cacheElems
    exact hmap
  · unfold Department.cacheElems
    apply List.map_congr_left
    intro x hx
    rw [hext, getDeque_append_left _ _ _ (hcv x hx)]

theorem reverse_wf (d : Department) (hwf : d.wf) :
    d.reverse_required_time.wf
    ∧ d.reverse_required_time.cacheElems = d.reverse_required_time.queueElems
    ∧ d.reverse_required_time.queueElems = d.queueElems := by
  obtain ⟨hq, hc, hqv, hcv, hb⟩ := hwf
  exact ⟨⟨hq, hq, hqv, hqv, hb⟩, rfl, rfl⟩

theorem wf_slot_bounds (d : Department) (hwf : d.wf) :
    (∀ l ∈ d.queueElems, l.length ≤ 6) ∧ (∀ l ∈ d.cacheElems, l.length ≤ 6)
    ∧ d.queueElems.length = d.capacity.toNat
    ∧ d.cacheElems.length = d.capacity.toNat := by
  obtain ⟨hq, hc, hqv, hcv, hb⟩ := hwf
  refine ⟨?_, ?_, by simp [Department.queueElems, hq], by simp [Department.cacheElems, hc]⟩
  · intro l hl
    obtain ⟨r, hr, rfl⟩ := List.mem_map.mp hl
    have := hb (getDeque d.store r) (getDeque_mem _ _ (hqv r hr))
    omega
  · intro l hl
    obtain ⟨r, hr, rfl⟩ := List.mem_map.mp hl
    have := hb (getDeque d.store r) (getDeque_mem _ _ (hcv r hr))
    omega

/-- Claim C7 as amended: construction, allocation, per-order evaluation,
commit and abort all preserve the shape invariant (`Department.wf`):
both schedules have exactly `capacity` slots with in-range references
and every deque within its bound. Each slot — committed or speculative —
holds at most 6 finish times (not at most one: a commit copies the whole
speculative history). The speculative contents coincide with the
committed contents initially, right after a commit, and right after an
abort, i.e. at the start of every evaluation. -/
theorem schedule_shape_invariant :
    (∀ name cap tt, (Department.init name cap tt).wf
      ∧ (Department.init name cap tt).cacheElems = (Department.init name cap tt).queueElems)
    ∧ (∀ (d : Department) (t rt : Int) (d' : Department),
        d.wf → d.append_time t = some (rt, d') → d'.wf)
    ∧ (∀ (d : Department) (o : Order) (rt : Int) (d' : Department),
        d.wf → d.required_time o = some (rt, d') → d'.wf)
    ∧ (∀ d : Department, d.wf →
        d.commit_required_time.wf
        ∧ d.commit_required_time.queueElems = d.cacheElems
        ∧ d.commit_required_time.cacheElems = d.cacheElems)
    ∧ (∀ d : Department, d.wf →
        d.reverse_required_time.wf
        ∧ d.reverse_required_time.cacheElems = d.reverse_required_time.queueElems
        ∧ d.reverse_required_time.queueElems = d.queueElems)
    ∧ (∀ d : Department, d.wf →
        (∀ l ∈ d.queueElems, l.length ≤ 6) ∧ (∀ l ∈ d.cacheElems, l.length ≤ 6)
        ∧ d.queueElems.length = d.capacity.toNat
        ∧ d.cacheElems.length = d.capacity.toNat) :=
  ⟨fun name cap tt => ⟨init_wf name cap tt, init_contents name cap tt⟩,
    append_time_wf,
    fun d o rt d' hwf h => required_time_loop_wf o.order_time o.items d 0 rt d' hwf h,
    commit_wf, reverse_wf, wf_slot_bounds⟩

theorem schedule_shape_invariant_witness :
    (Department.init "cooking" 1 60).wf
    ∧ (Department.init "cooking" 1 60).required_time exampleOrderB = some (60, exampleDept')
    ∧ exampleDept'.wf :=
  ⟨by decide, by decide,
    schedule_shape_invariant.2.2.1 (Department.init "cooking" 1 60) exampleOrderB 60
      exampleDept' (by decide) (by decide)⟩
